import Mathlib

/-!
# A verification development for the bootpeg apegs engine

This file embeds the clause algebra (`bootpeg/apegs/clauses.py`), the
memoized top-down match interpreter (`bootpeg/apegs/interpret.py`) and the
grammar/parser facade (`bootpeg/apegs/front.py`) as executable Lean
definitions, and proves properties of the embedding.

Modelling conventions:
* the input domain `D` is `List Char` (Python string slicing becomes
  `drop`/`take`);
* Python exceptions become an explicit result type `MRes`; the exception
  cause chain (`raise ... from ...`) is carried inside `Failure` so the
  diagnostic rule path of `front.report` can be reconstructed;
* the memo dict is an association list threaded through every matcher,
  so mutations survive raised failures exactly as the Python dict does;
* unbounded recursion (rule references) is paid for with a fuel counter;
  `MRes.oof` marks fuel exhaustion and is an artifact of the embedding,
  never of the Python code;
* `MRes.bug` marks a raised host exception that no matcher catches
  (`KeyError` for an unresolved rule lookup, a failed `assert`).
-/

namespace Bootpeg

/-- The clause algebra of `bootpeg/apegs/clauses.py`.  Constructor names
follow the Python classes; `anyN` is `Any`, `rep` is `Repeat`, and the
n-ary `Sequence`, `Choice` and `Entail` keep their variadic argument lists
as `List Clause`. -/
inductive Clause where
  | value : List Char → Clause
  | range : List Char → List Char → Clause
  | empty : Clause
  | anyN : Nat → Clause
  | seq : List Clause → Clause
  | choice : List Clause → Clause
  | rep : Clause → Clause
  | not : Clause → Clause
  | and : Clause → Clause
  | entail : List Clause → Clause
  | capture : Clause → String → Bool → Clause
  | transform : Clause → String → Clause
  | ref : String → Clause
deriving Repr

/-- Result/capture values flowing through matches: strings (input slices),
lists (variadic captures), plus payloads used by the semantic actions of
the grammars modelled here (booleans, naturals, pairs, clauses, rules). -/
inductive Val where
  | str : List Char → Val
  | bool : Bool → Val
  | nat : Nat → Val
  | list : List Val → Val
  | pair : Val → Val → Val
  | clause : Clause → Val
deriving Repr

/-- `Match` of `interpret.py`: a successful match with its position,
length, transform results and named captures. -/
structure Match where
  at_ : Nat
  length : Nat
  results : List Val := []
  captures : List (String × Val) := []
deriving Repr

/-- `Match.end`. -/
def Match.end_ (m : Match) : Nat := m.at_ + m.length

/-- `Match.__add__`: join two adjacent matches.  The Python `assert` of
adjacency (`self.end == other.at`) is a debug check; adjacency at every
call site follows from the position invariant proved below. -/
def Match.add (m o : Match) : Match :=
  ⟨m.at_, m.length + o.length, m.results ++ o.results, m.captures ++ o.captures⟩

/-- One `MatchFailure`/`FatalMatchFailure` record: its kind and the
`(at, clause)` it carries. -/
structure FailRec where
  fatal : Bool
  at_ : Nat
  clause : Clause
deriving Repr

/-- A raised failure together with its `__cause__` chain (outermost
first).  `pyCause` records that the chain ends in a non-match host
exception (an action raising inside `Transform`). -/
structure Failure where
  top : FailRec
  rest : List FailRec
  pyCause : Bool
deriving Repr

/-- `raise MatchFailure(at, clause) from None` (or with no active cause). -/
def mkFail (fatal : Bool) (p : Nat) (c : Clause) : Failure :=
  ⟨⟨fatal, p, c⟩, [], false⟩

/-- `Entail`: `raise FatalMatchFailure(mf.at, mf.clause) from mf`. -/
def Failure.entailWrap (f : Failure) : Failure :=
  ⟨⟨true, f.top.at_, f.top.clause⟩, f.top :: f.rest, f.pyCause⟩

/-- `Reference`: `raise type(mf)(at, clause) from mf`. -/
def Failure.refWrap (p : Nat) (c : Clause) (f : Failure) : Failure :=
  ⟨⟨f.top.fatal, p, c⟩, f.top :: f.rest, f.pyCause⟩

/-- `Transform`: `raise FatalMatchFailure(at, clause) from err` where
`err` is an arbitrary host exception. -/
def pyFail (p : Nat) (c : Clause) : Failure :=
  ⟨⟨true, p, c⟩, [], true⟩

/-- Outcome of one matcher invocation. -/
inductive MRes where
  | ok : Match → MRes
  | err : Failure → MRes
  | oof : MRes
  | bug : MRes
deriving Repr

/-- The memo dict `MutableMapping[Tuple[int, str], Optional[Match]]`,
as an insertion-ordered association list (latest insertion wins). -/
abbrev Memo := List ((Nat × String) × Option Match)

def memoGet : Memo → Nat → String → Option (Option Match)
  | [], _, _ => none
  | (k, v) :: rest, p, n => if k = (p, n) then some v else memoGet rest p n

def memoSet (memo : Memo) (p : Nat) (n : String) (v : Option Match) : Memo :=
  ((p, n), v) :: memo

/-- The rule table of a parser: rule name to rule body clause. -/
abbrev Rules := List (String × Clause)

def lookupRule : Rules → String → Option Clause
  | [], _ => none
  | (n, c) :: rest, name => if n = name then some c else lookupRule rest name

/-- The bound action table: action source text to a callable of the
captures.  `none` as a result models the action raising an exception. -/
abbrev Actions := String → Option (List (String × Val) → Option Val)

/-- Python slicing `of[a : b]` (with `0 ≤ a ≤ b`). -/
def slice (of : List Char) (a b : Nat) : List Char :=
  (of.drop a).take (b - a)

/-- Python string `≤`, lexicographic on code points. -/
def leC : List Char → List Char → Bool
  | [], _ => true
  | _ :: _, [] => false
  | a :: as, b :: bs => if a < b then true else if a = b then leC as bs else false

/-- The tail of `Sequence.do_match` / `Entail.do_match`:
`for sub in subs: match += sub(of, match.end, memo, rules)`. -/
def seqRun (sub : Clause → Nat → Memo → Memo × MRes) :
    List Clause → Match → Memo → Memo × MRes
  | [], acc, memo => (memo, .ok acc)
  | c :: cs, acc, memo =>
    match sub c acc.end_ memo with
    | (memo', .ok m) => seqRun sub cs (acc.add m) memo'
    | (memo', r) => (memo', r)

/-- `Choice.do_match`: try alternatives in order, catching only
recoverable failures; fail with the choice clause when all are spent. -/
def choiceRun (sub : Clause → Nat → Memo → Memo × MRes) (whole : Clause) (p : Nat) :
    List Clause → Memo → Memo × MRes
  | [], memo => (memo, .err (mkFail false p whole))
  | c :: cs, memo =>
    match sub c p memo with
    | (memo', .ok m) => (memo', .ok m)
    | (memo', .err f) =>
      if f.top.fatal then (memo', .err f) else choiceRun sub whole p cs memo'
    | (memo', r) => (memo', r)

/-- The `while at < match.end < len(of)` loop of `Repeat.do_match`.
`p` is the loop variable `at`; a recoverable failure of the sub-clause
breaks the loop keeping the match so far.  The loop fuel is an artifact;
`repeatLoop_no_oof` shows the fuel used by `matchC` never runs out. -/
def repeatLoop (inputLen : Nat) (sub : Nat → Memo → Memo × MRes) :
    Nat → Nat → Match → Memo → Memo × MRes
  | 0, _, _, memo => (memo, .oof)
  | f + 1, p, m, memo =>
    if p < m.end_ ∧ m.end_ < inputLen then
      match sub m.end_ memo with
      | (memo', .ok m2) => repeatLoop inputLen sub f m.end_ (m.add m2) memo'
      | (memo', .err fl) =>
        if fl.top.fatal then (memo', .err fl) else (memo', .ok m)
      | (memo', r) => (memo', r)
    else (memo, .ok m)

/-- The `while True` seed-and-grow loop of `Reference.do_match`: invoke
the rule body; store every match that ends strictly past `oldEnd` (which
starts at `at - 1`); stop and return the last stored match when an
iteration no longer advances; wrap and re-raise any failure. -/
def growLoop (p : Nat) (name : String) (refClause : Clause)
    (body : Memo → Memo × MRes) :
    Nat → Int → Option Match → Memo → Memo × MRes
  | 0, _, _, memo => (memo, .oof)
  | f + 1, oldEnd, stored, memo =>
    match body memo with
    | (memo', .ok newM) =>
      if oldEnd < (newM.end_ : Int) then
        growLoop p name refClause body f (newM.end_ : Int) (some newM)
          (memoSet memo' p name (some newM))
      else
        match stored with
        | some m => (memo', .ok m)
        | none => (memo', .bug)
    | (memo', .err fl) => (memo', .err (fl.refWrap p refClause))
    | (memo', r) => (memo', r)

/-- The interpreter: `match_clause` of `interpret.py` fused with the
`do_match` closures it builds.  One unit of fuel is spent per clause
node entered; every Python construct is translated case by case. -/
def matchC (of : List Char) (rules : Rules) (acts : Actions) :
    Nat → Clause → Nat → Memo → Memo × MRes
  | 0, _, _, memo => (memo, .oof)
  | f + 1, c, p, memo =>
    match c with
    | .value v =>
      if slice of p (p + v.length) = v then (memo, .ok ⟨p, v.length, [], []⟩)
      else (memo, .err (mkFail false p c))
    | .range lo hi =>
      let cand := slice of p (p + lo.length)
      if cand.length = lo.length ∧ leC lo cand ∧ leC cand hi then
        (memo, .ok ⟨p, lo.length, [], []⟩)
      else (memo, .err (mkFail false p c))
    | .empty => (memo, .ok ⟨p, 0, [], []⟩)
    | .anyN k =>
      if p + k ≤ of.length then (memo, .ok ⟨p, k, [], []⟩)
      else (memo, .err (mkFail false p c))
    | .seq [] => (memo, .bug)
    | .seq (c1 :: cs) =>
      match matchC of rules acts f c1 p memo with
      | (memo', .ok m) => seqRun (matchC of rules acts f) cs m memo'
      | (memo', r) => (memo', r)
    | .entail [] => (memo, .bug)
    | .entail (c1 :: cs) =>
      match
        (match matchC of rules acts f c1 p memo with
         | (memo', .ok m) => seqRun (matchC of rules acts f) cs m memo'
         | (memo', r) => (memo', r)) with
      | (memo', .err fl) =>
        if fl.top.fatal then (memo', .err fl) else (memo', .err fl.entailWrap)
      | (memo', r) => (memo', r)
    | .choice cs => choiceRun (matchC of rules acts f) c p cs memo
    | .rep c1 =>
      match matchC of rules acts f c1 p memo with
      | (memo', .ok m) =>
        repeatLoop of.length (fun a mm => matchC of rules acts f c1 a mm)
          (of.length + 1) p m memo'
      | (memo', r) => (memo', r)
    | .not c1 =>
      match matchC of rules acts f c1 p memo with
      | (memo', .ok _) => (memo', .err (mkFail false p c))
      | (memo', .err fl) =>
        if fl.top.fatal then (memo', .err fl) else (memo', .ok ⟨p, 0, [], []⟩)
      | (memo', r) => (memo', r)
    | .and c1 =>
      match matchC of rules acts f c1 p memo with
      | (memo', .ok _) => (memo', .ok ⟨p, 0, [], []⟩)
      | (memo', r) => (memo', r)
    | .capture c1 name variadic =>
      match matchC of rules acts f c1 p memo with
      | (memo', .ok m) =>
        if variadic then
          (memo', .ok ⟨m.at_, m.length, [], [(name, .list m.results)]⟩)
        else
          match m.results with
          | [] =>
            (memo', .ok ⟨m.at_, m.length, [],
              [(name, .str (slice of m.at_ m.end_))]⟩)
          | [r1] => (memo', .ok ⟨m.at_, m.length, [], [(name, r1)]⟩)
          | _ :: _ :: _ => (memo', .err (mkFail false p c))
      | (memo', r) => (memo', r)
    | .transform c1 act =>
      match matchC of rules acts f c1 p memo with
      | (memo', .ok m) =>
        match acts act with
        | none => (memo', .err (pyFail p c))
        | some fn =>
          match fn m.captures with
          | some v => (memo', .ok ⟨m.at_, m.length, [v], []⟩)
          | none => (memo', .err (pyFail p c))
      | (memo', r) => (memo', r)
    | .ref name =>
      match memoGet memo p name with
      | some (some m) => (memo, .ok m)
      | some none => (memo, .err (mkFail false p c))
      | none =>
        let memo1 := memoSet memo p name none
        match lookupRule rules name with
        | none => (memo1, .bug)
        | some body =>
          growLoop p name c (fun mm => matchC of rules acts f body p mm)
            (of.length + 2) ((p : Int) - 1) none memo1

/-! ## The facade of `bootpeg/apegs/front.py` -/

/-- `ParseFailure`, reduced to the fields the properties speak about:
the failing index and the rule path. -/
structure ParseFailure where
  index : Nat
  path : List String
deriving Repr, DecidableEq

/-- The name of a `Reference` clause, if any (used for the rule path). -/
def refName : Clause → Option String
  | .ref n => some n
  | _ => none

/-- `walk_failures`: the raised failure and its causes, outermost first,
without the trailing host exception. -/
def failChain (f : Failure) : List FailRec := f.top :: f.rest

/-- `report`: the innermost match failure gives the index; the rule path
collects the `Reference` clauses of the outer failures.  When the chain
ends in a host exception (`pyCause`), the Python code drops the last two
elements instead of the last one, which selects the same records. -/
def report (f : Failure) : ParseFailure :=
  ⟨(f.rest.getLastD f.top).at_,
   (failChain f).dropLast.filterMap (fun r => refName r.clause)⟩

/-- The distinct top-level failure kinds of `unpack`. -/
inductive UnpackErr where
  | unusedCaptures
  | tooManyResults
  | noResult
deriving Repr, DecidableEq

/-- Outcome of `Parser.__call__`: a result value, a reported
`ParseFailure`, an `unpack` `ValueError` (which the Python code does not
catch), fuel exhaustion, or an uncaught host exception. -/
inductive CallRes where
  | ok : Val → CallRes
  | parseFail : ParseFailure → CallRes
  | unpackFail : UnpackErr → CallRes
  | oof : CallRes
  | bug : CallRes
deriving Repr

/-- `unpack`: checks in source order — unused captures, more than one
result, no result — else the single result. -/
def unpack (m : Match) : CallRes :=
  match m.captures with
  | _ :: _ => .unpackFail .unusedCaptures
  | [] =>
    if 1 < m.results.length then .unpackFail .tooManyResults
    else
      match m.results with
      | [] => .unpackFail .noResult
      | v :: _ => .ok v

/-- `Parser.__call__`: match `Reference(top)` at position 0 with a fresh
empty memo, unpack on success, report match failures. -/
def parserCall (rules : Rules) (acts : Actions) (fuel : Nat)
    (of : List Char) : CallRes :=
  match rules with
  | [] => .bug
  | (topName, _) :: _ =>
    match matchC of rules acts fuel (.ref topName) 0 [] with
    | (_, .ok m) => unpack m
    | (_, .err f) => .parseFail (report f)
    | (_, .oof) => .oof
    | (_, .bug) => .bug

/-! ## The eager build phase of `Parser.__init__`

`Parser.__init__` compiles every rule body with `match_clause`; the only
work that can fail there is `py_transform`, which runs
`discover_captures` on each `Transform`'s child.  `discover_captures`
raises on a `Choice` whose alternatives disagree on capture names (the
Python code raises the clause class `Value(...)`, which CPython turns
into a `TypeError`; either way an error escapes eagerly).  Unpacking
`head, *rest` of an empty `Sequence`/`Entail` also raises at build. -/

inductive BindErr where
  | choiceMismatch
  | emptyClause
deriving Repr, DecidableEq

mutual

/-- `discover_captures` of `interpret.py`: the capture signature of a
clause.  A `Transform` hides its inner captures. -/
def discover_captures : Clause → Except BindErr (Finset String)
  | .value _ => .ok ∅
  | .range _ _ => .ok ∅
  | .empty => .ok ∅
  | .anyN _ => .ok ∅
  | .seq cs => discoverUnion cs
  | .entail cs => discoverUnion cs
  | .choice [] => .error .emptyClause
  | .choice (c :: cs) => do
    let s ← discover_captures c
    discoverAgree s cs
  | .rep c => discover_captures c
  | .not _ => .ok ∅
  | .and _ => .ok ∅
  | .capture _ n _ => .ok {n}
  | .transform _ _ => .ok ∅
  | .ref _ => .ok ∅

/-- `set.union(*map(discover_captures, sub_clauses))`; with no
sub-clauses `set.union()` raises. -/
def discoverUnion : List Clause → Except BindErr (Finset String)
  | [] => .error .emptyClause
  | [c] => discover_captures c
  | c :: c' :: cs => do
    let s ← discover_captures c
    let t ← discoverUnion (c' :: cs)
    .ok (s ∪ t)

/-- The loop of `discover_captures[Choice]`: each further alternative
must have the same capture set (empty symmetric difference). -/
def discoverAgree (s : Finset String) : List Clause → Except BindErr (Finset String)
  | [] => .ok s
  | c :: cs => do
    let t ← discover_captures c
    if s ≠ t then .error .choiceMismatch else discoverAgree s cs

end

mutual

/-- The eager (build-time) effects of `match_clause`: recurse through
children exactly as the closures are built, and at each `Transform` run
`py_transform`, whose failing part is `discover_captures` on the child.
No check of any kind happens at a `Reference`. -/
def buildChecks : Clause → Except BindErr Unit
  | .value _ => .ok ()
  | .range _ _ => .ok ()
  | .empty => .ok ()
  | .anyN _ => .ok ()
  | .seq [] => .error .emptyClause
  | .seq (c :: cs) => buildList (c :: cs)
  | .entail [] => .error .emptyClause
  | .entail (c :: cs) => buildList (c :: cs)
  | .choice cs => buildList cs
  | .rep c => buildChecks c
  | .not c => buildChecks c
  | .and c => buildChecks c
  | .capture c _ _ => buildChecks c
  | .transform c _ => do
    buildChecks c
    let _ ← discover_captures c
    .ok ()
  | .ref _ => .ok ()

def buildList : List Clause → Except BindErr Unit
  | [] => .ok ()
  | c :: cs => do
    buildChecks c
    buildList cs

end

/-- `Parser.__init__`: compile the entry `Reference` (no checks) and
every rule body, eagerly. -/
def buildParser : Rules → Except BindErr Unit
  | [] => .ok ()
  | (_, c) :: rs => do
    buildChecks c
    buildParser rs

/-! ## Concrete grammars and action tables used in the scenarios -/

/-- An action table binding nothing. -/
def noActs : Actions := fun _ => none

/-- The grammar `r: | r "b" | !r "a"`, whose seed-and-grow expansion
stores a match on the first iteration and fails on the second. -/
def growRules : Rules :=
  [("r", .choice [.seq [.ref "r", .value ['b']],
                  .seq [.not (.ref "r"), .value ['a']]])]

/-- The grammar `top: | "a" ~ "b" | "a" "c"` from the commit scenario. -/
def entailRules : Rules :=
  [("top", .choice [.seq [.value ['a'], .entail [.value ['b']]],
                    .seq [.value ['a'], .value ['c']]])]

/-- The grammar `top: "a" { mk }` whose action returns a constant. -/
def oneARules : Rules := [("top", .transform (.value ['a']) "mk")]

def oneAActs : Actions :=
  fun s => if s = "mk" then some (fun _ => some (.bool true)) else none

/-! ## C2: entailment commits, fatal failures abort choices -/

/-- **C2.** For the grammar `top: | "a" ~ "b" | "a" "c"` on input `"ac"`,
the parse fails fatally at the position of the `"b"` requirement (index 1)
without falling through to the second alternative: the failure chain shows
the recoverable failure of `Value("b")` at 1 re-raised fatally with the
original position and clause, and the reported failure index is 1.
In general, a recoverable failure of an `Entail` body is re-raised as a
fatal failure carrying the original position and clause, and a fatal
failure from any alternative of a `Choice` propagates unchanged no matter
what the remaining alternatives are. -/
theorem entail_commit_and_choice_abort :
    (matchC ['a', 'c'] entailRules noActs 30 (.ref "top") 0 [] =
      ([((0, "top"), none)],
        .err ⟨⟨true, 0, .ref "top"⟩,
          [⟨true, 1, .value ['b']⟩, ⟨false, 1, .value ['b']⟩], false⟩))
    ∧ (parserCall entailRules noActs 30 ['a', 'c'] = .parseFail ⟨1, ["top"]⟩)
    ∧ (∀ of rules acts f c1 p memo memo' fl,
        matchC of rules acts f c1 p memo = (memo', .err fl) →
        fl.top.fatal = false →
        matchC of rules acts (f + 1) (.entail [c1]) p memo =
          (memo', .err ⟨⟨true, fl.top.at_, fl.top.clause⟩,
            fl.top :: fl.rest, fl.pyCause⟩))
    ∧ (∀ sub whole p c cs memo memo' fl,
        sub c p memo = (memo', .err fl) →
        fl.top.fatal = true →
        choiceRun sub whole p (c :: cs) memo = (memo', .err fl)) := by
  refine ⟨rfl, rfl, ?_, ?_⟩
  · intro of rules acts f c1 p memo memo' fl h hf
    simp [matchC, h, hf, Failure.entailWrap]
  · intro sub whole p c cs memo memo' fl h hf
    simp [choiceRun, h, hf]

theorem entail_commit_and_choice_abort_witness :
    matchC ['a'] [] noActs 2 (.entail [.value ['b']]) 0 [] =
      ([], .err ⟨⟨true, 0, .value ['b']⟩, [⟨false, 0, .value ['b']⟩], false⟩) ∧
    choiceRun (fun _ _ memo => (memo, .err (mkFail true 0 .empty))) .empty 0
        [.empty, .anyN 1] [] =
      ([], .err (mkFail true 0 .empty)) :=
  ⟨entail_commit_and_choice_abort.2.2.1 ['a'] [] noActs 1 (.value ['b']) 0 [] []
      (mkFail false 0 (.value ['b'])) rfl rfl,
   entail_commit_and_choice_abort.2.2.2 (fun _ _ memo => (memo, .err (mkFail true 0 .empty)))
      .empty 0 .empty [.anyN 1] [] [] (mkFail true 0 .empty) rfl rfl⟩

/-! ## C5: capture semantics -/

/-- **C5.** A successful match of `Capture(c, name, variadic)` yields a
match with the child's position and length, zero results and exactly the
one capture `(name, value)`: the ordered list of the child's results if
variadic; otherwise the literal input slice covered by the match when the
child produced no result, the single result when it produced exactly one,
and a (recoverable) failure — the design error — when it produced more
than one. -/
theorem capture_semantics
    (of : List Char) (rules : Rules) (acts : Actions) (f : Nat) (c1 : Clause)
    (name : String) (p : Nat) (memo memo' : Memo) (m : Match)
    (h : matchC of rules acts f c1 p memo = (memo', .ok m)) :
    (matchC of rules acts (f + 1) (.capture c1 name true) p memo =
      (memo', .ok ⟨m.at_, m.length, [], [(name, .list m.results)]⟩))
    ∧ (m.results = [] →
        matchC of rules acts (f + 1) (.capture c1 name false) p memo =
          (memo', .ok ⟨m.at_, m.length, [],
            [(name, .str (slice of m.at_ m.end_))]⟩))
    ∧ (∀ r1, m.results = [r1] →
        matchC of rules acts (f + 1) (.capture c1 name false) p memo =
          (memo', .ok ⟨m.at_, m.length, [], [(name, r1)]⟩))
    ∧ (∀ r1 r2 rs, m.results = r1 :: r2 :: rs →
        matchC of rules acts (f + 1) (.capture c1 name false) p memo =
          (memo', .err (mkFail false p (.capture c1 name false)))) := by
  refine ⟨?_, ?_, ?_, ?_⟩
  · simp [matchC, h]
  · intro hr; simp [matchC, h, hr]
  · intro r1 hr; simp [matchC, h, hr]
  · intro r1 r2 rs hr; simp [matchC, h, hr]

theorem capture_semantics_witness :
    matchC ['a', 'b'] [] noActs 2 (.capture (.value ['a']) "x" false) 0 [] =
      ([], .ok ⟨0, 1, [], [("x", .str ['a'])]⟩) :=
  (capture_semantics ['a', 'b'] [] noActs 1 (.value ['a']) "x" 0 [] []
      ⟨0, 1, [], []⟩ rfl).2.1 rfl

/-! ## C6: the Repeat loop terminates, guarded against empty matches
and end-of-input -/

/-- When the guard `p < m.end < inputLen` fails, one more round of loop
fuel returns the accumulated match unchanged. -/
theorem repeatLoop_stop (inputLen : Nat) (sub : Nat → Memo → Memo × MRes)
    (g p : Nat) (m : Match) (memo : Memo)
    (h : ¬ (p < m.end_ ∧ m.end_ < inputLen)) :
    repeatLoop inputLen sub (g + 1) p m memo = (memo, .ok m) := by
  rw [repeatLoop]
  simp [h]

/-- **C6.** The `Repeat` loop terminates on every input and position:
(1) the loop fuel `matchC` allots is never exhausted — the loop continues
only while the new start strictly exceeds the previous one and is below
the input length, so any fuel exceeding `|input| - at` suffices no matter
how the sub-matcher behaves (so long as the sub-matcher itself returns);
(2) a zero-length first child match ends the repetition after that single
iteration; (3) the repetition stops as soon as the match end reaches the
end of the input. -/
theorem repeat_terminates :
    (∀ (inputLen : Nat) (sub : Nat → Memo → Memo × MRes),
      (∀ a mm, (sub a mm).2 ≠ .oof) →
      ∀ g p m memo, inputLen - p < g →
        (repeatLoop inputLen sub g p m memo).2 ≠ .oof)
    ∧ (∀ of rules acts f c1 p memo,
        (∀ a mm, (matchC of rules acts f c1 a mm).2 ≠ .oof) →
        (matchC of rules acts (f + 1) (.rep c1) p memo).2 ≠ .oof)
    ∧ (∀ of rules acts f c1 p memo memo' m,
        matchC of rules acts f c1 p memo = (memo', .ok m) →
        m.at_ = p → m.length = 0 →
        matchC of rules acts (f + 1) (.rep c1) p memo = (memo', .ok m))
    ∧ (∀ of rules acts f c1 p memo memo' m,
        matchC of rules acts f c1 p memo = (memo', .ok m) →
        of.length ≤ m.end_ →
        matchC of rules acts (f + 1) (.rep c1) p memo = (memo', .ok m)) := by
  have loop : ∀ (inputLen : Nat) (sub : Nat → Memo → Memo × MRes),
      (∀ a mm, (sub a mm).2 ≠ .oof) →
      ∀ g p m memo, inputLen - p < g →
        (repeatLoop inputLen sub g p m memo).2 ≠ .oof := by
    intro inputLen sub hsub g
    induction g with
    | zero => intro p m memo hg; omega
    | succ g ih =>
      intro p m memo hg
      rw [repeatLoop]
      split
      · next hcond =>
        rcases hm : sub m.end_ memo with ⟨memo', r⟩
        cases r with
        | ok m2 =>
          simp only [hm]
          exact ih m.end_ (m.add m2) memo' (by omega)
        | err fl =>
          simp only [hm]
          split <;> simp
        | oof => exact absurd (congrArg Prod.snd hm) (hsub m.end_ memo)
        | bug => simp [hm]
      · simp
  refine ⟨loop, ?_, ?_, ?_⟩
  · intro of rules acts f c1 p memo hsub
    rw [matchC]
    rcases hm : matchC of rules acts f c1 p memo with ⟨memo', r⟩
    cases r with
    | ok m =>
      simp only [hm]
      exact loop of.length _ (fun a mm => hsub a mm) (of.length + 1) p m memo' (by omega)
    | err fl => simp [hm]
    | oof => exact absurd (congrArg Prod.snd hm) (hsub p memo)
    | bug => simp [hm]
  · intro of rules acts f c1 p memo memo' m h hat hlen
    rw [matchC, h]
    exact repeatLoop_stop _ _ of.length p m memo'
      (by simp [Match.end_, hat, hlen])
  · intro of rules acts f c1 p memo memo' m h hend
    rw [matchC, h]
    exact repeatLoop_stop _ _ of.length p m memo' (by omega)

theorem repeat_terminates_witness :
    (repeatLoop 0 (fun _ mm => (mm, .ok ⟨0, 0, [], []⟩)) 1 0 ⟨0, 0, [], []⟩ []).2 ≠ .oof
    ∧ matchC ['a'] [] noActs 2 (.rep .empty) 0 [] = ([], .ok ⟨0, 0, [], []⟩) :=
  ⟨repeat_terminates.1 0 (fun _ mm => (mm, .ok ⟨0, 0, [], []⟩))
      (fun _ _ => by simp) 1 0 ⟨0, 0, [], []⟩ [] (by omega),
   repeat_terminates.2.2.1 ['a'] [] noActs 1 .empty 0 [] [] ⟨0, 0, [], []⟩ rfl rfl rfl⟩

/-! ## C1: the seed-and-grow expansion of a Reference -/

/-- **C1 (amended).** Matching `Reference(name)` at a position absent from
the memo uses seed-and-grow: the `None` sentinel is inserted for
`(position, name)`, the best end starts at `position - 1` with no match
stored, and the rule body is invoked repeatedly; each resulting match
whose end strictly exceeds the previous best end is stored in the memo;
when an iteration no longer advances, the last stored match is returned.
When an iteration *fails*, however, the failure is always re-raised
(wrapped with the reference's position and clause), whether or not a
match was already stored — the stored match is *not* returned on
failure. -/
theorem reference_seed_and_grow :
    (∀ of rules acts f name p memo body,
      memoGet memo p name = none →
      lookupRule rules name = some body →
      matchC of rules acts (f + 1) (.ref name) p memo =
        growLoop p name (.ref name) (fun mm => matchC of rules acts f body p mm)
          (of.length + 2) ((p : Int) - 1) none (memoSet memo p name none))
    ∧ (∀ p name rc (body : Memo → Memo × MRes) g oldEnd stored memo memo' newM,
        body memo = (memo', .ok newM) →
        oldEnd < (newM.end_ : Int) →
        growLoop p name rc body (g + 1) oldEnd stored memo =
          growLoop p name rc body g (newM.end_ : Int) (some newM)
            (memoSet memo' p name (some newM)))
    ∧ (∀ p name rc (body : Memo → Memo × MRes) g oldEnd m memo memo' newM,
        body memo = (memo', .ok newM) →
        ¬ oldEnd < (newM.end_ : Int) →
        growLoop p name rc body (g + 1) oldEnd (some m) memo = (memo', .ok m))
    ∧ (∀ p name rc (body : Memo → Memo × MRes) g oldEnd stored memo memo' fl,
        body memo = (memo', .err fl) →
        growLoop p name rc body (g + 1) oldEnd stored memo =
          (memo', .err (fl.refWrap p rc))) := by
  refine ⟨?_, ?_, ?_, ?_⟩
  · intro of rules acts f name p memo body hmiss hrule
    rw [matchC]
    simp [hmiss, hrule]
  · intro p name rc body g oldEnd stored memo memo' newM hbody hadv
    rw [growLoop]
    simp [hbody, hadv]
  · intro p name rc body g oldEnd m memo memo' newM hbody hstay
    rw [growLoop]
    simp [hbody, hstay]
  · intro p name rc body g oldEnd stored memo memo' fl hbody
    rw [growLoop]
    simp [hbody]

theorem reference_seed_and_grow_witness :
    matchC ['a'] [("r", .value ['a'])] noActs 3 (.ref "r") 0 [] =
      growLoop 0 "r" (.ref "r")
        (fun mm => matchC ['a'] [("r", .value ['a'])] noActs 2 (.value ['a']) 0 mm)
        3 (-1) none [((0, "r"), none)]
    ∧ growLoop 0 "r" (.ref "r") (fun mm => (mm, .err (mkFail false 0 .empty)))
        4 0 (some ⟨0, 1, [], []⟩) [] =
      ([], .err ((mkFail false 0 .empty).refWrap 0 (.ref "r"))) :=
  ⟨reference_seed_and_grow.1 ['a'] [("r", .value ['a'])] noActs 2 "r" 0 []
      (.value ['a']) rfl rfl,
   reference_seed_and_grow.2.2.2 0 "r" (.ref "r")
      (fun mm => (mm, .err (mkFail false 0 .empty))) 3 0 (some ⟨0, 1, [], []⟩)
      [] [] (mkFail false 0 .empty) rfl⟩

/-- **C1, counterexample.** For the grammar `r: | r "b" | !r "a"` on
input `"a"`, the first grow iteration matches `"a"` and stores the match
`(0, 1)` in the memo, the second iteration fails (the stored match makes
`!r` fail), and `Reference.do_match` propagates the failure even though a
match was stored — refuting "the failure is propagated only if no match
was ever stored", which would require the stored match `(0, 1)` to be
returned. -/
theorem reference_grow_failure_counterexample :
    (matchC ['a'] growRules noActs 30 (.ref "r") 0 []).2 =
      .err ⟨⟨false, 0, .ref "r"⟩,
        [⟨false, 0, .choice [.seq [.ref "r", .value ['b']],
                             .seq [.not (.ref "r"), .value ['a']]]⟩], false⟩
    ∧ memoGet (matchC ['a'] growRules noActs 30 (.ref "r") 0 []).1 0 "r" =
        some (some ⟨0, 1, [], []⟩) :=
  ⟨rfl, rfl⟩

/-! ## C4: which binding errors are detected eagerly -/

/-- **C4 (amended).** Constructing a `Parser` eagerly checks only capture
signatures: compiling a rule body runs `discover_captures` on the child
of every `Transform`, so a `Choice` with mismatched capture-name sets
under a `Transform` raises at build time.  No eager check exists for
references: building performs no check at a `Reference`, and an
unresolved reference only surfaces as an uncaught lookup error when the
reference is first matched (after the sentinel has been inserted).
Action parameter lists are generated from the discovered capture
signature itself, so a separate parameter/signature mismatch cannot
arise. -/
theorem binding_checks :
    (∀ name, buildChecks (.ref name) = .ok ())
    ∧ buildParser
        [("top", .transform (.choice [.capture .empty "x" false, .empty]) "a")] =
        .error .choiceMismatch
    ∧ (∀ of rules acts f name p memo,
        memoGet memo p name = none →
        lookupRule rules name = none →
        matchC of rules acts (f + 1) (.ref name) p memo =
          (memoSet memo p name none, .bug)) := by
  refine ⟨fun _ => rfl, rfl, ?_⟩
  intro of rules acts f name p memo hmiss hrule
  rw [matchC]
  simp [hmiss, hrule]

theorem binding_checks_witness :
    matchC ['a'] [] noActs 4 (.ref "ghost") 0 [] = ([((0, "ghost"), none)], .bug) :=
  binding_checks.2.2 ['a'] [] noActs 3 "ghost" 0 [] rfl rfl

/-- **C4, counterexample.** A grammar whose only rule body is an
unresolved `Reference` builds without any error; the error appears only
when the parser is invoked (an uncaught rule-table lookup failure),
refuting "constructing a Parser raises an error if a Reference does not
resolve to a rule of the grammar". -/
theorem unresolved_reference_counterexample :
    buildParser [("top", .ref "nope")] = .ok ()
    ∧ parserCall [("top", .ref "nope")] noActs 5 [] = .bug :=
  ⟨rfl, rfl⟩

/-! ## C3: what a successful top-level invocation guarantees -/

/-- **C3 (amended).** A parser invocation fails whenever the top-level
match has unused captures (in source order, checked first) and whenever
its result count differs from one; when the match has no captures and
exactly one result, that result is returned.  No check relates the match
length to the input length: the match covering the whole input is *not*
required for success. -/
theorem unpack_semantics :
    (∀ (m : Match) c cs, m.captures = c :: cs →
      unpack m = .unpackFail .unusedCaptures)
    ∧ (∀ (m : Match), m.captures = [] → m.results = [] →
        unpack m = .unpackFail .noResult)
    ∧ (∀ (m : Match) v r rs, m.captures = [] → m.results = v :: r :: rs →
        unpack m = .unpackFail .tooManyResults)
    ∧ (∀ (m : Match) v, m.captures = [] → m.results = [v] →
        unpack m = .ok v)
    ∧ (∀ topName b rest acts fuel of mm m,
        matchC of ((topName, b) :: rest) acts fuel (.ref topName) 0 [] =
          (mm, .ok m) →
        parserCall ((topName, b) :: rest) acts fuel of = unpack m) := by
  refine ⟨?_, ?_, ?_, ?_, ?_⟩
  · intro m c cs h; simp [unpack, h]
  · intro m hc hr; simp [unpack, hc, hr]
  · intro m v r rs hc hr; simp [unpack, hc, hr]
  · intro m v hc hr; simp [unpack, hc, hr]
  · intro topName b rest acts fuel of mm m h
    simp [parserCall, h]

theorem unpack_semantics_witness :
    unpack ⟨0, 1, [.bool true], []⟩ = .ok (.bool true)
    ∧ parserCall oneARules oneAActs 10 ['a'] = unpack ⟨0, 1, [.bool true], []⟩ :=
  ⟨unpack_semantics.2.2.2.1 ⟨0, 1, [.bool true], []⟩ (.bool true) rfl rfl,
   unpack_semantics.2.2.2.2 "top" (.transform (.value ['a']) "mk") [] oneAActs 10
      ['a'] [((0, "top"), some ⟨0, 1, [.bool true], []⟩), ((0, "top"), none)]
      ⟨0, 1, [.bool true], []⟩ rfl⟩

/-- **C3, counterexample.** The grammar `top: "a" { mk }` on input
`"ab"`: the top-level match covers only index 0 (`end = 1` while the
input has length 2), yet the invocation *succeeds* with the action's
result — refuting "invoking the parser fails whenever the match does not
cover the whole input". -/
theorem whole_input_not_checked_counterexample :
    parserCall oneARules oneAActs 10 ['a', 'b'] = .ok (.bool true)
    ∧ (matchC ['a', 'b'] oneARules oneAActs 10 (.ref "top") 0 []).2 =
        .ok ⟨0, 1, [.bool true], []⟩
    ∧ (⟨0, 1, [.bool true], []⟩ : Match).end_ = 1
    ∧ (['a', 'b'] : List Char).length = 2 :=
  ⟨rfl, rfl, rfl, rfl⟩

/-! ## C7: determinism -/

/-- **C7.** Parsing is deterministic: the embedded `Parser.__call__` is a
pure function of the rule table, action table and input — each invocation
builds its own fresh empty memo, so two invocations on the same parser
and input are equal, and when both fail with a `ParseFailure` the failing
index and rule path coincide. -/
theorem parser_deterministic :
    (∀ rules acts fuel of,
      parserCall rules acts fuel of = parserCall rules acts fuel of)
    ∧ (∀ rules acts fuel of pf pf',
        parserCall rules acts fuel of = .parseFail pf →
        parserCall rules acts fuel of = .parseFail pf' →
        pf.index = pf'.index ∧ pf.path = pf'.path) := by
  refine ⟨fun _ _ _ _ => rfl, ?_⟩
  intro rules acts fuel of pf pf' h h'
  rw [h] at h'
  cases h'
  exact ⟨rfl, rfl⟩

theorem parser_deterministic_witness :
    (1 : Nat) = 1 ∧ (["top"] : List String) = ["top"] :=
  parser_deterministic.2 entailRules noActs 30 ['a', 'c'] ⟨1, ["top"]⟩
    ⟨1, ["top"]⟩ rfl rfl

/-! ## Memo persistence

The memo dict is only ever written by `Reference.do_match`: the sentinel
is inserted for a key that was absent, and the grow loop overwrites only
its own (previously absent) key.  Hence any entry present before some
matcher runs is still present, unchanged, afterwards. -/

/-- Memo transformers that keep every pre-existing entry at its value. -/
def MemoPres (g : Memo → Memo × MRes) : Prop :=
  ∀ memo q n v, memoGet memo q n = some v → memoGet (g memo).1 q n = some v

theorem memoGet_memoSet (memo : Memo) (p : Nat) (n : String) (v : Option Match)
    (q : Nat) (n' : String) :
    memoGet (memoSet memo p n v) q n' =
      if (p, n) = (q, n') then some v else memoGet memo q n' := rfl

theorem seqRun_pres (sub : Clause → Nat → Memo → Memo × MRes)
    (hsub : ∀ c a, MemoPres (sub c a)) :
    ∀ (cs : List Clause) (acc : Match), MemoPres (seqRun sub cs acc) := by
  intro cs
  induction cs with
  | nil => intro acc memo q n v h; simpa [seqRun] using h
  | cons c cs ih =>
    intro acc memo q n v h
    have h' := hsub c acc.end_ memo q n v h
    rw [seqRun]
    rcases hm : sub c acc.end_ memo with ⟨memo', r⟩
    rw [hm] at h'
    cases r with
    | ok m => exact ih (acc.add m) memo' q n v h'
    | err fl => exact h'
    | oof => exact h'
    | bug => exact h'

theorem choiceRun_pres (sub : Clause → Nat → Memo → Memo × MRes)
    (hsub : ∀ c a, MemoPres (sub c a)) (whole : Clause) (p : Nat) :
    ∀ cs, MemoPres (choiceRun sub whole p cs) := by
  intro cs
  induction cs with
  | nil => intro memo q n v h; simpa [choiceRun] using h
  | cons c cs ih =>
    intro memo q n v h
    have h' := hsub c p memo q n v h
    rw [choiceRun]
    rcases hm : sub c p memo with ⟨memo', r⟩
    rw [hm] at h'
    cases r with
    | ok m => exact h'
    | err fl =>
      by_cases hf : fl.top.fatal = true
      · simp only [hf, if_true]; exact h'
      · simp only [hf, if_false, Bool.false_eq_true]
        exact ih memo' q n v h'
    | oof => exact h'
    | bug => exact h'

theorem repeatLoop_pres (inputLen : Nat) (sub : Nat → Memo → Memo × MRes)
    (hsub : ∀ a, MemoPres (sub a)) :
    ∀ g p m, MemoPres (repeatLoop inputLen sub g p m) := by
  intro g
  induction g with
  | zero => intro p m memo q n v h; simpa [repeatLoop] using h
  | succ g ih =>
    intro p m memo q n v h
    rw [repeatLoop]
    split
    · have h' := hsub m.end_ memo q n v h
      rcases hm : sub m.end_ memo with ⟨memo', r⟩
      rw [hm] at h'
      cases r with
      | ok m2 => exact ih m.end_ (m.add m2) memo' q n v h'
      | err fl => dsimp only; split <;> exact h'
      | oof => exact h'
      | bug => exact h'
    · exact h

theorem growLoop_pres (p : Nat) (name : String) (rc : Clause)
    (body : Memo → Memo × MRes) (hbody : MemoPres body) :
    ∀ g oldEnd stored memo q n v, (q, n) ≠ (p, name) →
      memoGet memo q n = some v →
      memoGet (growLoop p name rc body g oldEnd stored memo).1 q n = some v := by
  intro g
  induction g with
  | zero => intro oldEnd stored memo q n v hk h; simpa [growLoop] using h
  | succ g ih =>
    intro oldEnd stored memo q n v hk h
    rw [growLoop]
    have h' := hbody memo q n v h
    rcases hm : body memo with ⟨memo', r⟩
    rw [hm] at h'
    cases r with
    | ok newM =>
      dsimp only
      split
      · apply ih _ _ _ q n v hk
        rw [memoGet_memoSet, if_neg (Ne.symm hk)]
        exact h'
      · cases stored <;> exact h'
    | err fl => exact h'
    | oof => exact h'
    | bug => exact h'

theorem matchC_pres (of : List Char) (rules : Rules) (acts : Actions) :
    ∀ f c p, MemoPres (matchC of rules acts f c p) := by
  intro f
  induction f with
  | zero => intro c p memo q n v h; simpa [matchC] using h
  | succ f ih =>
    intro c p memo q n v h
    cases c with
    | value v' => rw [matchC]; split <;> exact h
    | range lo hi => rw [matchC]; split <;> exact h
    | empty => rw [matchC]; exact h
    | anyN k => rw [matchC]; split <;> exact h
    | seq cs =>
      cases cs with
      | nil => rw [matchC]; exact h
      | cons c1 cs =>
        rw [matchC]
        have h' := ih c1 p memo q n v h
        rcases hm : matchC of rules acts f c1 p memo with ⟨memo', r⟩
        rw [hm] at h'
        cases r with
        | ok m => exact seqRun_pres _ (fun c a => ih c a) cs m memo' q n v h'
        | err fl => exact h'
        | oof => exact h'
        | bug => exact h'
    | entail cs =>
      cases cs with
      | nil => rw [matchC]; exact h
      | cons c1 cs =>
        rw [matchC]
        have h' := ih c1 p memo q n v h
        rcases hm : matchC of rules acts f c1 p memo with ⟨memo', r⟩
        rw [hm] at h'
        cases r with
        | ok m =>
          have h'' := seqRun_pres _ (fun c a => ih c a) cs m memo' q n v h'
          dsimp only
          rcases hs : seqRun (matchC of rules acts f) cs m memo' with ⟨memo'', r2⟩
          rw [hs] at h''
          cases r2 with
          | ok m2 => exact h''
          | err fl => dsimp only; split <;> exact h''
          | oof => exact h''
          | bug => exact h''
        | err fl => dsimp only; split <;> exact h'
        | oof => exact h'
        | bug => exact h'
    | choice cs =>
      rw [matchC]
      exact choiceRun_pres _ (fun c a => ih c a) _ p cs memo q n v h
    | rep c1 =>
      rw [matchC]
      have h' := ih c1 p memo q n v h
      rcases hm : matchC of rules acts f c1 p memo with ⟨memo', r⟩
      rw [hm] at h'
      cases r with
      | ok m =>
        exact repeatLoop_pres of.length _ (fun a => ih c1 a) (of.length + 1) p m
          memo' q n v h'
      | err fl => exact h'
      | oof => exact h'
      | bug => exact h'
    | not c1 =>
      rw [matchC]
      have h' := ih c1 p memo q n v h
      rcases hm : matchC of rules acts f c1 p memo with ⟨memo', r⟩
      rw [hm] at h'
      cases r with
      | ok m => exact h'
      | err fl => dsimp only; split <;> exact h'
      | oof => exact h'
      | bug => exact h'
    | and c1 =>
      rw [matchC]
      have h' := ih c1 p memo q n v h
      rcases hm : matchC of rules acts f c1 p memo with ⟨memo', r⟩
      rw [hm] at h'
      cases r with
      | ok m => exact h'
      | err fl => exact h'
      | oof => exact h'
      | bug => exact h'
    | capture c1 name variadic =>
      rw [matchC]
      have h' := ih c1 p memo q n v h
      rcases hm : matchC of rules acts f c1 p memo with ⟨memo', r⟩
      rw [hm] at h'
      cases r with
      | ok m => dsimp only; split <;> [exact h'; (split <;> exact h')]
      | err fl => exact h'
      | oof => exact h'
      | bug => exact h'
    | transform c1 act =>
      rw [matchC]
      have h' := ih c1 p memo q n v h
      rcases hm : matchC of rules acts f c1 p memo with ⟨memo', r⟩
      rw [hm] at h'
      cases r with
      | ok m =>
        dsimp only
        split
        · exact h'
        · split <;> exact h'
      | err fl => exact h'
      | oof => exact h'
      | bug => exact h'
    | ref name =>
      rw [matchC]
      cases hg : memoGet memo p name with
      | some o => cases o <;> exact h
      | none =>
        have hk : (q, n) ≠ (p, name) := by
          intro he
          rw [show q = p from congrArg Prod.fst he,
              show n = name from congrArg Prod.snd he] at h
          rw [hg] at h
          exact Option.noConfusion h
        have h1 : memoGet (memoSet memo p name none) q n = some v := by
          rw [memoGet_memoSet, if_neg (Ne.symm hk)]
          exact h
        cases hr : lookupRule rules name with
        | none => exact h1
        | some body =>
          exact growLoop_pres p name _ _ (fun mm => ih body p mm) _ _ _ _ q n v hk h1

end Bootpeg

namespace Bootpeg

/-- One failing iteration of the grow loop wraps and re-raises. -/
theorem growLoop_err (p : Nat) (name : String) (rc : Clause)
    (body : Memo → Memo × MRes) (g : Nat) (oldEnd : Int) (stored : Option Match)
    (memo memo' : Memo) (fl : Failure) (h : body memo = (memo', .err fl)) :
    growLoop p name rc body (g + 1) oldEnd stored memo =
      (memo', .err (fl.refWrap p rc)) := by
  rw [growLoop]
  simp [h]

/-- **C10 (amended).** Memo entries persist: (1) when the memo maps
`(position, name)` to the `None` sentinel, matching `Reference(name)`
there raises a recoverable failure immediately, leaving the memo
untouched; (2) it does so without consulting the rule table at all (the
result is the same for any rule table), i.e. without re-invoking the rule
body; (3) any entry present in the memo before any matcher runs — the
sentinel included — is still present with the same value afterwards;
(4) when a seed-and-grow expansion fails on its very first iteration, the
sentinel is still in the memo for its key afterwards.  (When a *later*
iteration fails after storing an interim match, the memo instead retains
that stored match — see the counterexample.) -/
theorem sentinel_persistence :
    (∀ of rules acts f name p memo,
      memoGet memo p name = some none →
      matchC of rules acts (f + 1) (.ref name) p memo =
        (memo, .err (mkFail false p (.ref name))))
    ∧ (∀ of rules rules' acts f name p memo,
        memoGet memo p name = some none →
        matchC of rules acts (f + 1) (.ref name) p memo =
          matchC of rules' acts (f + 1) (.ref name) p memo)
    ∧ (∀ of rules acts f c p memo q n v,
        memoGet memo q n = some v →
        memoGet (matchC of rules acts f c p memo).1 q n = some v)
    ∧ (∀ of rules acts f name p memo body memo2 fl,
        memoGet memo p name = none →
        lookupRule rules name = some body →
        matchC of rules acts f body p (memoSet memo p name none) =
          (memo2, .err fl) →
        matchC of rules acts (f + 1) (.ref name) p memo =
          (memo2, .err (fl.refWrap p (.ref name)))
        ∧ memoGet memo2 p name = some none) := by
  refine ⟨?_, ?_,
    fun of rules acts f c p memo q n v h =>
      matchC_pres of rules acts f c p memo q n v h, ?_⟩
  · intro of rules acts f name p memo hs
    rw [matchC]
    simp [hs]
  · intro of rules rules' acts f name p memo hs
    rw [matchC, matchC]
    simp [hs]
  · intro of rules acts f name p memo body memo2 fl hmiss hrule hbody
    have hgot : memoGet (memoSet memo p name none) p name = some none := by
      rw [memoGet_memoSet, if_pos rfl]
    have hkeep := matchC_pres of rules acts f body p (memoSet memo p name none)
      p name none hgot
    rw [hbody] at hkeep
    constructor
    · rw [matchC]
      simp only [hmiss, hrule]
      exact growLoop_err p name (.ref name) _ (of.length + 1) ((p : Int) - 1)
        none _ memo2 fl hbody
    · exact hkeep

theorem sentinel_persistence_witness :
    matchC ['a'] growRules noActs 5 (.ref "r") 0 [((0, "r"), none)] =
      ([((0, "r"), none)], .err (mkFail false 0 (.ref "r"))) :=
  sentinel_persistence.1 ['a'] growRules noActs 4 "r" 0 [((0, "r"), none)] rfl

/-- **C10, counterexample.** For the grammar `r: | r "b" | !r "a"` on
input `"a"`, the seed-and-grow expansion of `r` at position 0 fails, yet
the memo afterwards maps `(0, "r")` to the *stored match* `(0, 1)`, not
to the `None` sentinel, and a later match of `r` at 0 within the same
parse *succeeds* immediately with that match instead of raising a
recoverable failure. -/
theorem sentinel_replaced_counterexample :
    memoGet (matchC ['a'] growRules noActs 30 (.ref "r") 0 []).1 0 "r" =
      some (some ⟨0, 1, [], []⟩)
    ∧ memoGet (matchC ['a'] growRules noActs 30 (.ref "r") 0 []).1 0 "r" ≠
      some none
    ∧ (matchC ['a'] growRules noActs 30 (.ref "r") 0
        (matchC ['a'] growRules noActs 30 (.ref "r") 0 []).1).2 =
      .ok ⟨0, 1, [], []⟩ := by
  refine ⟨rfl, ?_, rfl⟩
  rw [show memoGet (matchC ['a'] growRules noActs 30 (.ref "r") 0 []).1 0 "r" =
      some (some ⟨0, 1, [], []⟩) from rfl]
  simp

end Bootpeg

namespace Bootpeg

/-! ## The position invariant

Every matcher invoked at a position within the input returns, on
success, a match that starts at that position and ends within the input;
memo entries always satisfy the same bound at their key's position. -/

/-- Every stored match in the memo sits at its key's position and ends
within the input. -/
def MemoOK (of : List Char) (memo : Memo) : Prop :=
  ∀ q n m, memoGet memo q n = some (some m) → m.at_ = q ∧ m.end_ ≤ of.length

/-- A slice that realises its nominal length lies within the input. -/
theorem slice_len_le (of : List Char) (p L : Nat) (hp : p ≤ of.length)
    (h : (slice of p (p + L)).length = L) : p + L ≤ of.length := by
  simp [slice, List.length_take, List.length_drop] at h
  omega

/-- What the induction requires of the sub-matcher. -/
def SubOK (of : List Char) (sub : Clause → Nat → Memo → Memo × MRes) : Prop :=
  ∀ c a mm, a ≤ of.length → MemoOK of mm →
    MemoOK of (sub c a mm).1 ∧
    ∀ m, (sub c a mm).2 = .ok m → m.at_ = a ∧ m.end_ ≤ of.length

theorem seqRun_ok (of : List Char) (sub : Clause → Nat → Memo → Memo × MRes)
    (hsub : SubOK of sub) :
    ∀ (cs : List Clause) (acc : Match) (memo : Memo),
      acc.end_ ≤ of.length → MemoOK of memo →
      MemoOK of (seqRun sub cs acc memo).1 ∧
      ∀ m, (seqRun sub cs acc memo).2 = .ok m →
        m.at_ = acc.at_ ∧ m.end_ ≤ of.length := by
  intro cs
  induction cs with
  | nil =>
    intro acc memo hacc hmem
    refine ⟨hmem, ?_⟩
    intro m hok
    cases hok
    exact ⟨rfl, hacc⟩
  | cons c cs ih =>
    intro acc memo hacc hmem
    have hc := hsub c acc.end_ memo hacc hmem
    rw [seqRun]
    rcases hm : sub c acc.end_ memo with ⟨memo', r⟩
    rw [hm] at hc
    cases r with
    | ok m2 =>
      obtain ⟨hm2at, hm2end⟩ := hc.2 m2 rfl
      have hend : (acc.add m2).end_ ≤ of.length := by
        simp only [Match.add, Match.end_] at hm2at hm2end ⊢
        omega
      have := ih (acc.add m2) memo' hend hc.1
      exact ⟨this.1, fun m hok => ⟨(this.2 m hok).1, (this.2 m hok).2⟩⟩
    | err fl => exact ⟨hc.1, fun m hok => nomatch hok⟩
    | oof => exact ⟨hc.1, fun m hok => nomatch hok⟩
    | bug => exact ⟨hc.1, fun m hok => nomatch hok⟩

theorem choiceRun_ok (of : List Char) (sub : Clause → Nat → Memo → Memo × MRes)
    (hsub : SubOK of sub) (whole : Clause) (p : Nat) (hp : p ≤ of.length) :
    ∀ (cs : List Clause) (memo : Memo), MemoOK of memo →
      MemoOK of (choiceRun sub whole p cs memo).1 ∧
      ∀ m, (choiceRun sub whole p cs memo).2 = .ok m →
        m.at_ = p ∧ m.end_ ≤ of.length := by
  intro cs
  induction cs with
  | nil =>
    intro memo hmem
    exact ⟨hmem, fun m hok => nomatch hok⟩
  | cons c cs ih =>
    intro memo hmem
    have hc := hsub c p memo hp hmem
    rw [choiceRun]
    rcases hm : sub c p memo with ⟨memo', r⟩
    rw [hm] at hc
    cases r with
    | ok m => exact ⟨hc.1, fun m' hok => by cases hok; exact hc.2 _ rfl⟩
    | err fl =>
      by_cases hf : fl.top.fatal = true
      · simp only [hf, if_true]
        exact ⟨hc.1, fun m hok => nomatch hok⟩
      · simp only [hf, if_false, Bool.false_eq_true]
        exact ih memo' hc.1
    | oof => exact ⟨hc.1, fun m hok => nomatch hok⟩
    | bug => exact ⟨hc.1, fun m hok => nomatch hok⟩

theorem repeatLoop_ok (of : List Char) (sub : Nat → Memo → Memo × MRes)
    (hsub : ∀ a mm, a ≤ of.length → MemoOK of mm →
      MemoOK of (sub a mm).1 ∧
      ∀ m, (sub a mm).2 = .ok m → m.at_ = a ∧ m.end_ ≤ of.length) :
    ∀ (g p : Nat) (m : Match) (memo : Memo),
      m.end_ ≤ of.length → MemoOK of memo →
      MemoOK of (repeatLoop of.length sub g p m memo).1 ∧
      ∀ m', (repeatLoop of.length sub g p m memo).2 = .ok m' →
        m'.at_ = m.at_ ∧ m'.end_ ≤ of.length := by
  intro g
  induction g with
  | zero =>
    intro p m memo hend hmem
    exact ⟨hmem, fun m' hok => nomatch hok⟩
  | succ g ih =>
    intro p m memo hend hmem
    rw [repeatLoop]
    split
    · next hcond =>
      have hc := hsub m.end_ memo (le_of_lt hcond.2) hmem
      rcases hm : sub m.end_ memo with ⟨memo', r⟩
      rw [hm] at hc
      cases r with
      | ok m2 =>
        obtain ⟨hm2at, hm2end⟩ := hc.2 m2 rfl
        have hend' : (m.add m2).end_ ≤ of.length := by
          simp only [Match.add, Match.end_] at hm2at hm2end ⊢
          omega
        have := ih m.end_ (m.add m2) memo' hend' hc.1
        exact ⟨this.1, fun m' hok => ⟨(this.2 m' hok).1, (this.2 m' hok).2⟩⟩
      | err fl =>
        dsimp only
        split
        · exact ⟨hc.1, fun m' hok => nomatch hok⟩
        · exact ⟨hc.1, fun m' hok => by cases hok; exact ⟨rfl, hend⟩⟩
      | oof => exact ⟨hc.1, fun m' hok => nomatch hok⟩
      | bug => exact ⟨hc.1, fun m' hok => nomatch hok⟩
    · exact ⟨hmem, fun m' hok => by cases hok; exact ⟨rfl, hend⟩⟩

theorem growLoop_ok (of : List Char) (p : Nat) (name : String) (rc : Clause)
    (body : Memo → Memo × MRes)
    (hbody : ∀ mm, MemoOK of mm →
      MemoOK of (body mm).1 ∧
      ∀ m, (body mm).2 = .ok m → m.at_ = p ∧ m.end_ ≤ of.length) :
    ∀ (g : Nat) (oldEnd : Int) (stored : Option Match) (memo : Memo),
      MemoOK of memo →
      (∀ sm, stored = some sm → sm.at_ = p ∧ sm.end_ ≤ of.length) →
      MemoOK of (growLoop p name rc body g oldEnd stored memo).1 ∧
      ∀ m, (growLoop p name rc body g oldEnd stored memo).2 = .ok m →
        m.at_ = p ∧ m.end_ ≤ of.length := by
  intro g
  induction g with
  | zero =>
    intro oldEnd stored memo hmem hstored
    exact ⟨hmem, fun m hok => nomatch hok⟩
  | succ g ih =>
    intro oldEnd stored memo hmem hstored
    rw [growLoop]
    have hc := hbody memo hmem
    rcases hm : body memo with ⟨memo', r⟩
    rw [hm] at hc
    cases r with
    | ok newM =>
      obtain ⟨hnat, hnend⟩ := hc.2 newM rfl
      dsimp only
      split
      · have hset : MemoOK of (memoSet memo' p name (some newM)) := by
          intro q n m hget
          rw [memoGet_memoSet] at hget
          split at hget
          · next he =>
            cases hget
            have hq : p = q := congrArg Prod.fst he
            exact ⟨hq ▸ hnat, hnend⟩
          · exact hc.1 q n m hget
        exact ih (newM.end_ : Int) (some newM) (memoSet memo' p name (some newM))
          hset (fun sm hsm => by cases hsm; exact ⟨hnat, hnend⟩)
      · cases stored with
        | some sm =>
          exact ⟨hc.1, fun m hok => by cases hok; exact hstored sm rfl⟩
        | none => exact ⟨hc.1, fun m hok => nomatch hok⟩
    | err fl => exact ⟨hc.1, fun m hok => nomatch hok⟩
    | oof => exact ⟨hc.1, fun m hok => nomatch hok⟩
    | bug => exact ⟨hc.1, fun m hok => nomatch hok⟩

end Bootpeg

namespace Bootpeg

theorem matchC_ok (of : List Char) (rules : Rules) (acts : Actions) :
    ∀ (f : Nat) (c : Clause) (p : Nat) (memo : Memo),
      p ≤ of.length → MemoOK of memo →
      MemoOK of (matchC of rules acts f c p memo).1 ∧
      ∀ m, (matchC of rules acts f c p memo).2 = .ok m →
        m.at_ = p ∧ m.end_ ≤ of.length := by
  intro f
  induction f with
  | zero =>
    intro c p memo hp hmem
    exact ⟨hmem, fun m hok => nomatch hok⟩
  | succ f ih =>
    have hsub : SubOK of (matchC of rules acts f) :=
      fun c a mm ha hm => ih c a mm ha hm
    intro c p memo hp hmem
    cases c with
    | value v' =>
      rw [matchC]
      split
      · next hcond =>
        refine ⟨hmem, fun m hok => ?_⟩
        cases hok
        refine ⟨rfl, ?_⟩
        have := slice_len_le of p v'.length hp (by rw [hcond])
        simpa [Match.end_] using this
      · exact ⟨hmem, fun m hok => nomatch hok⟩
    | range lo hi =>
      rw [matchC]
      split
      · next hcond =>
        refine ⟨hmem, fun m hok => ?_⟩
        cases hok
        refine ⟨rfl, ?_⟩
        have := slice_len_le of p lo.length hp hcond.1
        simpa [Match.end_] using this
      · exact ⟨hmem, fun m hok => nomatch hok⟩
    | empty =>
      rw [matchC]
      refine ⟨hmem, fun m hok => ?_⟩
      cases hok
      exact ⟨rfl, by simpa [Match.end_] using hp⟩
    | anyN k =>
      rw [matchC]
      split
      · next hcond =>
        refine ⟨hmem, fun m hok => ?_⟩
        cases hok
        exact ⟨rfl, hcond⟩
      · exact ⟨hmem, fun m hok => nomatch hok⟩
    | seq cs =>
      cases cs with
      | nil => rw [matchC]; exact ⟨hmem, fun m hok => nomatch hok⟩
      | cons c1 cs =>
        rw [matchC]
        have hc := ih c1 p memo hp hmem
        rcases hm : matchC of rules acts f c1 p memo with ⟨memo', r⟩
        rw [hm] at hc
        cases r with
        | ok m =>
          obtain ⟨hat, hend⟩ := hc.2 m rfl
          have hrun := seqRun_ok of _ hsub cs m memo' hend hc.1
          exact ⟨hrun.1, fun m' hok =>
            ⟨(hrun.2 m' hok).1.trans hat, (hrun.2 m' hok).2⟩⟩
        | err fl => exact ⟨hc.1, fun m hok => nomatch hok⟩
        | oof => exact ⟨hc.1, fun m hok => nomatch hok⟩
        | bug => exact ⟨hc.1, fun m hok => nomatch hok⟩
    | entail cs =>
      cases cs with
      | nil => rw [matchC]; exact ⟨hmem, fun m hok => nomatch hok⟩
      | cons c1 cs =>
        rw [matchC]
        have hc := ih c1 p memo hp hmem
        rcases hm : matchC of rules acts f c1 p memo with ⟨memo', r⟩
        rw [hm] at hc
        cases r with
        | ok m =>
          obtain ⟨hat, hend⟩ := hc.2 m rfl
          have hrun := seqRun_ok of _ hsub cs m memo' hend hc.1
          dsimp only
          rcases hs : seqRun (matchC of rules acts f) cs m memo' with ⟨memo'', r2⟩
          rw [hs] at hrun
          cases r2 with
          | ok m2 =>
            exact ⟨hrun.1, fun m' hok => by
              cases hok
              exact ⟨(hrun.2 _ rfl).1.trans hat, (hrun.2 _ rfl).2⟩⟩
          | err fl =>
            dsimp only
            split
            · exact ⟨hrun.1, fun m' hok => nomatch hok⟩
            · exact ⟨hrun.1, fun m' hok => nomatch hok⟩
          | oof => exact ⟨hrun.1, fun m' hok => nomatch hok⟩
          | bug => exact ⟨hrun.1, fun m' hok => nomatch hok⟩
        | err fl =>
          dsimp only
          split
          · exact ⟨hc.1, fun m hok => nomatch hok⟩
          · exact ⟨hc.1, fun m hok => nomatch hok⟩
        | oof => exact ⟨hc.1, fun m hok => nomatch hok⟩
        | bug => exact ⟨hc.1, fun m hok => nomatch hok⟩
    | choice cs =>
      rw [matchC]
      exact choiceRun_ok of _ hsub _ p hp cs memo hmem
    | rep c1 =>
      rw [matchC]
      have hc := ih c1 p memo hp hmem
      rcases hm : matchC of rules acts f c1 p memo with ⟨memo', r⟩
      rw [hm] at hc
      cases r with
      | ok m =>
        obtain ⟨hat, hend⟩ := hc.2 m rfl
        have hloop := repeatLoop_ok of (fun a mm => matchC of rules acts f c1 a mm)
          (fun a mm ha hmm => ih c1 a mm ha hmm) (of.length + 1) p m memo' hend hc.1
        exact ⟨hloop.1, fun m' hok =>
          ⟨(hloop.2 m' hok).1.trans hat, (hloop.2 m' hok).2⟩⟩
      | err fl => exact ⟨hc.1, fun m hok => nomatch hok⟩
      | oof => exact ⟨hc.1, fun m hok => nomatch hok⟩
      | bug => exact ⟨hc.1, fun m hok => nomatch hok⟩
    | not c1 =>
      rw [matchC]
      have hc := ih c1 p memo hp hmem
      rcases hm : matchC of rules acts f c1 p memo with ⟨memo', r⟩
      rw [hm] at hc
      cases r with
      | ok m => exact ⟨hc.1, fun m' hok => nomatch hok⟩
      | err fl =>
        dsimp only
        split
        · exact ⟨hc.1, fun m hok => nomatch hok⟩
        · refine ⟨hc.1, fun m hok => ?_⟩
          cases hok
          exact ⟨rfl, by simpa [Match.end_] using hp⟩
      | oof => exact ⟨hc.1, fun m hok => nomatch hok⟩
      | bug => exact ⟨hc.1, fun m hok => nomatch hok⟩
    | and c1 =>
      rw [matchC]
      have hc := ih c1 p memo hp hmem
      rcases hm : matchC of rules acts f c1 p memo with ⟨memo', r⟩
      rw [hm] at hc
      cases r with
      | ok m =>
        refine ⟨hc.1, fun m' hok => ?_⟩
        cases hok
        exact ⟨rfl, by simpa [Match.end_] using hp⟩
      | err fl => exact ⟨hc.1, fun m hok => nomatch hok⟩
      | oof => exact ⟨hc.1, fun m hok => nomatch hok⟩
      | bug => exact ⟨hc.1, fun m hok => nomatch hok⟩
    | capture c1 name variadic =>
      rw [matchC]
      have hc := ih c1 p memo hp hmem
      rcases hm : matchC of rules acts f c1 p memo with ⟨memo', r⟩
      rw [hm] at hc
      cases r with
      | ok m =>
        obtain ⟨hat, hend⟩ := hc.2 m rfl
        dsimp only
        split
        · refine ⟨hc.1, fun m' hok => ?_⟩
          cases hok
          exact ⟨hat, hend⟩
        · split
          · refine ⟨hc.1, fun m' hok => ?_⟩
            cases hok
            exact ⟨hat, hend⟩
          · refine ⟨hc.1, fun m' hok => ?_⟩
            cases hok
            exact ⟨hat, hend⟩
          · exact ⟨hc.1, fun m' hok => nomatch hok⟩
      | err fl => exact ⟨hc.1, fun m hok => nomatch hok⟩
      | oof => exact ⟨hc.1, fun m hok => nomatch hok⟩
      | bug => exact ⟨hc.1, fun m hok => nomatch hok⟩
    | transform c1 act =>
      rw [matchC]
      have hc := ih c1 p memo hp hmem
      rcases hm : matchC of rules acts f c1 p memo with ⟨memo', r⟩
      rw [hm] at hc
      cases r with
      | ok m =>
        obtain ⟨hat, hend⟩ := hc.2 m rfl
        dsimp only
        split
        · exact ⟨hc.1, fun m' hok => nomatch hok⟩
        · split
          · refine ⟨hc.1, fun m' hok => ?_⟩
            cases hok
            exact ⟨hat, hend⟩
          · exact ⟨hc.1, fun m' hok => nomatch hok⟩
      | err fl => exact ⟨hc.1, fun m hok => nomatch hok⟩
      | oof => exact ⟨hc.1, fun m hok => nomatch hok⟩
      | bug => exact ⟨hc.1, fun m hok => nomatch hok⟩
    | ref name =>
      rw [matchC]
      cases hg : memoGet memo p name with
      | some o =>
        cases o with
        | some m =>
          refine ⟨hmem, fun m' hok => ?_⟩
          cases hok
          exact hmem p name _ hg
        | none => exact ⟨hmem, fun m hok => nomatch hok⟩
      | none =>
        have hmem1 : MemoOK of (memoSet memo p name none) := by
          intro q n m hget
          rw [memoGet_memoSet] at hget
          split at hget
          · exact absurd hget (by simp)
          · exact hmem q n m hget
        cases hr : lookupRule rules name with
        | none => exact ⟨hmem1, fun m hok => nomatch hok⟩
        | some body =>
          exact growLoop_ok of p name _ _ (fun mm hmm => ih body p mm hp hmm)
            (of.length + 2) _ none (memoSet memo p name none) hmem1
            (fun sm hsm => nomatch hsm)

/-- **C9.** Every matcher invoked at a requested position within the
input returns, on success, a match whose `at` field equals that position
(its length is a natural number, hence nonnegative by construction), so
`at ≤ end`; and provided every match stored in the memo sits at its
key's position and ends within the input — true of the fresh empty memo
a parse starts with — the resulting match satisfies
`at ≤ end ≤ len(input)` and the memo invariant is maintained. -/
theorem match_position_invariant (of : List Char) (rules : Rules)
    (acts : Actions) (f : Nat) (c : Clause) (p : Nat) (memo : Memo)
    (hp : p ≤ of.length) (hmem : MemoOK of memo) :
    (∀ m, (matchC of rules acts f c p memo).2 = .ok m →
      m.at_ = p ∧ m.at_ ≤ m.end_ ∧ m.end_ ≤ of.length)
    ∧ MemoOK of (matchC of rules acts f c p memo).1 := by
  obtain ⟨h1, h2⟩ := matchC_ok of rules acts f c p memo hp hmem
  exact ⟨fun m hok => ⟨(h2 m hok).1, Nat.le_add_right _ _, (h2 m hok).2⟩, h1⟩

theorem match_position_invariant_witness :
    (0 : Nat) = 0 ∧ (0 : Nat) ≤ 1 ∧ (1 : Nat) ≤ 2 :=
  (match_position_invariant ['a', 'b'] [] noActs 2 (.value ['a']) 0 []
    (by simp) (fun _ _ _ h => nomatch h)).1 ⟨0, 1, [], []⟩ rfl

end Bootpeg

namespace Bootpeg

/-! ## The minimal bootstrap grammar of `bootpeg/apegs/boot.py`

The rules needed to parse expressions (`expr` down to `atom`), built by
direct construction exactly as in `boot.py`; `apply(f, **captures)`
becomes the explicit `Transform (seq [...]) f` it expands to.  Actions
are keyed by their Python source text and interpreted as Lean functions
of the capture list. -/

/-- `spaces = Choice(Value(" "), Empty())`. -/
def spacesB : Clause := .choice [.value [' '], .empty]

/-- `neg(c) = Sequence(Not(c), Any(1))`. -/
def negB (c : Clause) : Clause := .seq [.not c, .anyN 1]

/-- `string.ascii_letters + "_"`. -/
def identChars : List Char :=
  "abcdefghijklmnopqrstuvwxyzABCDEFGHIJKLMNOPQRSTUVWXYZ_".toList

def identifierB : Clause := .rep (.choice (identChars.map (fun ch => .value [ch])))

def literalQuote (q : Char) : Clause :=
  .seq [.value [q], .rep (negB (.value [q])), .entail [.value [q]]]

def literalB : Clause := .choice [literalQuote '"', literalQuote '\'']

def atomB : Clause :=
  .choice [
    .transform (.choice [.value ['"', '"'], .value ['\'', '\'']]) "Empty()",
    .transform (.value ['.']) "Any(1)",
    .transform (.value ['\\', 'n']) "Value('\\n')",
    .transform (.seq [
        .capture (.ref "literal") "lower" false,
        .seq [spacesB, .value ['-'], spacesB],
        .capture (.entail [.ref "literal"]) "upper" false])
      "Range(lower[1:-1], upper[1:-1])",
    .transform (.seq [.capture (.ref "literal") "literal" false])
      "Value(literal[1:-1])",
    .transform (.seq [.capture (.ref "identifier") "name" false])
      "Reference(name)"]

def prefixB : Clause :=
  .choice [
    .transform (.seq [.value ['!'],
        .capture (.entail [.ref "prefix"]) "expr" false]) "Not(expr)",
    .seq [.value ['('], spacesB,
        .entail [.seq [.ref "expr", spacesB, .value [')']]]],
    .transform (.seq [.capture (.seq [.value ['['], spacesB,
        .entail [.seq [.ref "expr", spacesB, .value [']']]]]) "expr" false])
      "Choice(expr, Empty())",
    .ref "atom"]

def repeatB : Clause :=
  .choice [
    .transform (.seq [.capture (.ref "prefix") "expr" false, .value ['+']])
      "Repeat(expr)",
    .transform (.seq [.capture (.ref "prefix") "expr" false, .value ['*']])
      "Choice(Repeat(expr), Empty())",
    .ref "prefix"]

def captureB : Clause :=
  .choice [
    .transform (.seq [
        .capture (.choice [.transform (.value ['*']) "True",
            .transform .empty "False"]) "variadic" false,
        .capture (.ref "identifier") "name" false,
        .value ['='],
        .capture (.entail [.ref "repeat"]) "expr" false])
      "Capture(expr, name, variadic)",
    .ref "repeat"]

def sequenceB : Clause :=
  .choice [
    .transform (.seq [
        .capture (.ref "sequence") "head" false,
        spacesB,
        .capture (.ref "capture") "tail" false]) "Sequence(head, tail)",
    .transform (.seq [
        .capture (.ref "sequence") "head" false,
        .seq [spacesB, .value ['~'], spacesB],
        .capture (.entail [.ref "sequence"]) "tail" false])
      "Sequence(head, Entail(tail))",
    .transform (.seq [
        .capture (.seq [.value ['~'], spacesB, .entail [.ref "sequence"]])
          "seq" false]) "Entail(seq)",
    .ref "capture"]

def choiceClauseB : Clause :=
  .choice [
    .transform (.seq [
        .capture (.ref "choice") "first" false,
        .seq [spacesB, .value ['|'], spacesB],
        .capture (.entail [.ref "sequence"]) "otherwise" false])
      "Choice(first, otherwise)",
    .ref "sequence"]

def bootRules : Rules :=
  [("identifier", identifierB), ("literal", literalB), ("atom", atomB),
   ("prefix", prefixB), ("repeat", repeatB), ("capture", captureB),
   ("sequence", sequenceB), ("choice", choiceClauseB), ("expr", .ref "choice")]

/-- `dict(match.captures)[n]`: the last binding of `n` wins. -/
def getCap (caps : List (String × Val)) (n : String) : Option Val :=
  (caps.reverse.find? (fun kv => kv.1 == n)).map (·.2)

/-- Python `s[1:-1]`. -/
def stripQ (s : List Char) : List Char := (s.drop 1).dropLast

/-- Python string `<`, strict lexicographic. -/
def ltC (a b : List Char) : Bool := leC a b && !(a == b)

def asClause : Option Val → Option Clause
  | some (.clause c) => some c
  | _ => none

def asStr : Option Val → Option (List Char)
  | some (.str s) => some s
  | _ => none

def asBool : Option Val → Option Bool
  | some (.bool b) => some b
  | _ => none

/-- `Range.__init__`: bounds of unequal length raise; the bounds are
ordered at construction. -/
def mkRange (lo hi : List Char) : Option Val :=
  if lo.length ≠ hi.length then none
  else if ltC lo hi then some (.clause (.range lo hi))
  else some (.clause (.range hi lo))

/-- The clause-constructor actions of the bootstrap grammar, keyed by
their source text in `boot.py`. -/
def bootActs : Actions := fun s =>
  match s with
  | "Empty()" => some (fun _ => some (.clause .empty))
  | "Any(1)" => some (fun _ => some (.clause (.anyN 1)))
  | "Value('\\n')" => some (fun _ => some (.clause (.value ['\n'])))
  | "Range(lower[1:-1], upper[1:-1])" => some (fun caps => do
      let lo ← asStr (getCap caps "lower")
      let hi ← asStr (getCap caps "upper")
      mkRange (stripQ lo) (stripQ hi))
  | "Value(literal[1:-1])" => some (fun caps => do
      let s ← asStr (getCap caps "literal")
      some (.clause (.value (stripQ s))))
  | "Reference(name)" => some (fun caps => do
      let s ← asStr (getCap caps "name")
      some (.clause (.ref (String.mk s))))
  | "Not(expr)" => some (fun caps => do
      let e ← asClause (getCap caps "expr")
      some (.clause (.not e)))
  | "Choice(expr, Empty())" => some (fun caps => do
      let e ← asClause (getCap caps "expr")
      some (.clause (.choice [e, .empty])))
  | "Repeat(expr)" => some (fun caps => do
      let e ← asClause (getCap caps "expr")
      some (.clause (.rep e)))
  | "Choice(Repeat(expr), Empty())" => some (fun caps => do
      let e ← asClause (getCap caps "expr")
      some (.clause (.choice [.rep e, .empty])))
  | "True" => some (fun _ => some (.bool true))
  | "False" => some (fun _ => some (.bool false))
  | "Capture(expr, name, variadic)" => some (fun caps => do
      let e ← asClause (getCap caps "expr")
      let s ← asStr (getCap caps "name")
      let b ← asBool (getCap caps "variadic")
      some (.clause (.capture e (String.mk s) b)))
  | "Sequence(head, tail)" => some (fun caps => do
      let h ← asClause (getCap caps "head")
      let t ← asClause (getCap caps "tail")
      some (.clause (.seq [h, t])))
  | "Sequence(head, Entail(tail))" => some (fun caps => do
      let h ← asClause (getCap caps "head")
      let t ← asClause (getCap caps "tail")
      some (.clause (.seq [h, .entail [t]])))
  | "Entail(seq)" => some (fun caps => do
      let c ← asClause (getCap caps "seq")
      some (.clause (.entail [c])))
  | "Choice(first, otherwise)" => some (fun caps => do
      let a ← asClause (getCap caps "first")
      let b ← asClause (getCap caps "otherwise")
      some (.clause (.choice [a, b])))
  | _ => none

end Bootpeg

namespace Bootpeg

/-- **C8.** Parsing the surface-syntax optional form `[ " "+ ]` with the
bootstrap grammar's `expr` rule and parsing `" "*` produce structurally
equal rule bodies: both desugar to `Choice(Repeat(Value(" ")), Empty())`
(the two results below carry the identical `Clause` value, which is what
the structural `slotted.__eq__` of the Python clauses compares). -/
theorem optional_desugaring :
    (matchC "[ \" \"+ ]".toList bootRules bootActs 100 (.ref "expr") 0 []).2 =
      .ok ⟨0, 8, [.clause (.choice [.rep (.value [' ']), .empty])], []⟩
    ∧ (matchC "\" \"*".toList bootRules bootActs 100 (.ref "expr") 0 []).2 =
      .ok ⟨0, 4, [.clause (.choice [.rep (.value [' ']), .empty])], []⟩ :=
  ⟨rfl, rfl⟩

end Bootpeg
